import Mathlib

/-!
# Verification of the RecruitmentSystem matching engine

A shallow embedding of the scoring and ranking core of the repository:

* `agents/shortlister.py` — `Shortlister.evaluate_semantic_similarity`,
  `Shortlister.evaluate_detailed_match`, `Shortlister.shortlist_candidate`;
* `utils/embedding_utils.py` — `EmbeddingService.calculate_similarity`,
  `EmbeddingService.add_jd_embedding`, `EmbeddingService.add_resume_embedding`,
  `EmbeddingService.search_similar_jds`, `EmbeddingService.search_similar_resumes`;
* `db/init_db.py` — the shape of the `rankings` table.

Python float arithmetic is modelled exactly over `ℚ` (the numeric literals of
the source — 0.6, 0.4, 0.8, 100 — and every score derived from them are exact
in both worlds at the granularity the claims need; in particular the Python
product `0.8 * 100` is exactly `80.0`).  Embedding vectors, whose norms need a
square root, are modelled over `ℝ`.  The external LLM judge and the external
sentence-transformer encoder are opaque capabilities: their outputs enter the
model as parameters.
-/

namespace RecruitmentSystem

/-- One row of the `rankings` SQLite table created in `db/init_db.py`
(lines 66–79): `resume_id`, `job_id`, `match_score`, `rank` (nullable),
`shortlisted`.  The `id` and `created_at` columns play no role in any
behaviour modelled here and are omitted. -/
structure RankRow where
  resume_id : String
  job_id : String
  match_score : ℚ
  rank : Option Nat
  shortlisted : Bool
deriving DecidableEq

/-- The database state visible to `Shortlister`: which `job_id`s have a row in
`job_descriptions`, which `resume_id`s have a row in `resumes`, and the
`rankings` table as a list of rows in rowid (insertion) order. -/
structure DB where
  jobs : List String
  resumes : List String
  rankings : List RankRow
deriving DecidableEq

/-- Insert `x` into `l`, placing it before the first element `y` with
`f x y = true` and after every earlier element.  Building block of the stable
sort used to model the `ORDER BY` clauses of the source. -/
def insertBy {α : Type} (f : α → α → Bool) (x : α) : List α → List α
  | [] => [x]
  | y :: ys => if f x y then x :: y :: ys else y :: insertBy f x ys

/-- Stable insertion sort: elements are folded in list order, so two elements
neither of which strictly `f`-precedes the other keep their original relative
order.  This models a deterministic sort of table rows read in rowid order:
SQLite's `ORDER BY match_score DESC` in `shortlist_candidate` carries no
tie-break clause, so ties surface in row order. -/
def sortBy {α : Type} (f : α → α → Bool) (l : List α) : List α :=
  l.foldl (fun acc x => insertBy f x acc) []

theorem insertBy_perm {α : Type} (f : α → α → Bool) (x : α) (l : List α) :
    (insertBy f x l).Perm (x :: l) := by
  induction l with
  | nil => exact List.Perm.refl _
  | cons y ys ih =>
    by_cases h : f x y
    · simp [insertBy, h]
    · simp only [insertBy, h, if_false]
      exact (ih.cons y).trans (List.Perm.swap x y ys)

theorem mem_insertBy {α : Type} (f : α → α → Bool) (x z : α) (l : List α) :
    z ∈ insertBy f x l ↔ z = x ∨ z ∈ l := by
  rw [(insertBy_perm f x l).mem_iff, List.mem_cons]

theorem sortBy_perm_aux {α : Type} (f : α → α → Bool) :
    ∀ (l acc : List α), (l.foldl (fun a x => insertBy f x a) acc).Perm (acc ++ l) := by
  intro l
  induction l with
  | nil => intro acc; simp
  | cons x xs ih =>
    intro acc
    have step1 : ((x :: xs).foldl (fun a x => insertBy f x a) acc).Perm
        (insertBy f x acc ++ xs) := ih (insertBy f x acc)
    have step2 : (insertBy f x acc ++ xs).Perm ((x :: acc) ++ xs) :=
      (insertBy_perm f x acc).append_right xs
    exact (step1.trans step2).trans List.perm_middle.symm

theorem sortBy_perm {α : Type} (f : α → α → Bool) (l : List α) :
    (sortBy f l).Perm l := by
  simpa [sortBy] using sortBy_perm_aux f l []

theorem pairwise_insertBy {α : Type} (R : α → α → Prop) (f : α → α → Bool) (x : α)
    (l : List α)
    (htrans : ∀ a b c, R a b → R b c → R a c)
    (hl : l.Pairwise R)
    (h1 : ∀ y ∈ l, f x y = true → R x y)
    (h2 : ∀ y ∈ l, f x y = false → R y x) :
    (insertBy f x l).Pairwise R := by
  induction l with
  | nil => simp [insertBy]
  | cons y ys ih =>
    rcases List.pairwise_cons.1 hl with ⟨hy, hys⟩
    by_cases h : f x y
    · simp only [insertBy, h, if_true]
      refine List.pairwise_cons.2 ⟨?_, hl⟩
      intro z hz
      rcases List.mem_cons.1 hz with rfl | hz
      · exact h1 z (List.mem_cons_self _ _) h
      · exact htrans x y z (h1 y (List.mem_cons_self _ _) h) (hy z hz)
    · simp only [insertBy, h, if_false]
      refine List.pairwise_cons.2 ⟨?_, ?_⟩
      · intro z hz
        rcases (mem_insertBy f x z ys).1 hz with rfl | hz
        · exact h2 y (List.mem_cons_self _ _) (by simpa using h)
        · exact hy z hz
      · exact ih hys (fun w hw hf => h1 w (List.mem_cons_of_mem _ hw) hf)
          (fun w hw hf => h2 w (List.mem_cons_of_mem _ hw) hf)

theorem sortBy_pairwise_aux {α : Type} (R Qin : α → α → Prop) (f : α → α → Bool)
    (htrans : ∀ a b c, R a b → R b c → R a c)
    (h1 : ∀ a b, f a b = true → R a b)
    (h2 : ∀ a b, Qin a b → f b a = false → R a b) :
    ∀ (l acc : List α), l.Pairwise Qin → acc.Pairwise R →
      (∀ a ∈ acc, ∀ b ∈ l, Qin a b) →
      (l.foldl (fun a x => insertBy f x a) acc).Pairwise R := by
  intro l
  induction l with
  | nil => intro acc _ hacc _; exact hacc
  | cons x xs ih =>
    intro acc hQ hacc hinv
    rcases List.pairwise_cons.1 hQ with ⟨hx, hxs⟩
    refine ih (insertBy f x acc) hxs ?_ ?_
    · refine pairwise_insertBy R f x acc htrans hacc ?_ ?_
      · intro y _ hf; exact h1 x y hf
      · intro y hy hf
        exact h2 y x (hinv y hy x (List.mem_cons_self _ _)) hf
    · intro a ha b hb
      rcases (mem_insertBy f x a acc).1 ha with rfl | ha
      · exact hx b hb
      · exact hinv a ha b (List.mem_cons_of_mem _ hb)

theorem list_pairwise_true {α : Type} (l : List α) :
    l.Pairwise (fun _ _ => True) := by
  induction l with
  | nil => exact List.Pairwise.nil
  | cons x xs ih => exact List.pairwise_cons.2 ⟨fun _ _ => trivial, ih⟩

theorem sortBy_pairwise {α : Type} (R Qin : α → α → Prop) (f : α → α → Bool)
    (l : List α)
    (htrans : ∀ a b c, R a b → R b c → R a c)
    (h1 : ∀ a b, f a b = true → R a b)
    (h2 : ∀ a b, Qin a b → f b a = false → R a b)
    (hQ : l.Pairwise Qin) :
    (sortBy f l).Pairwise R := by
  refine sortBy_pairwise_aux R Qin f htrans h1 h2 l [] hQ List.Pairwise.nil ?_
  intro a ha; exact absurd ha (List.not_mem_nil a)

/-! ## The Shortlister agent (`agents/shortlister.py`)

`Shortlister.__init__` (line 20) fixes `self.shortlist_threshold = 0.8`; it is
not a constructor parameter.  The LLM judge and the sentence-transformer
encoder are external capabilities: `shortlist_candidate` below takes

* `sim : ℚ` — the value `EmbeddingService.calculate_similarity` returns for
  the rendered JD/resume texts of the pair, and
* `judge : Option ℚ` — `some j` when the LLM call succeeds, its answer parses
  as JSON and the parsed object carries `overall_score = j`; `none` when the
  LLM is uninitialised, the call raises (timeout included), the answer is not
  JSON, or the key is absent — every such path ends in the score defaulting
  to `0.0` in the source;
* `storageFails : Bool` — whether the `try` block persisting the result
  raises.  `sqlite3` wraps the INSERT/UPDATEs in one implicit transaction
  committed at the end, so a failure anywhere before `conn.commit()` leaves
  the table untouched (rollback on close), and the `except` branch returns
  the same tuple as the success path. -/

/-- `shortlist_threshold` from `Shortlister.__init__` line 20. -/
def shortlist_threshold : ℚ := 0.8

/-- `Shortlister.evaluate_semantic_similarity` (lines 129–168): returns `0.0`
when the job description or the resume is missing from the database, otherwise
the encoder similarity of the two rendered texts (here the parameter `sim`). -/
def evaluate_semantic_similarity (db : DB) (job_id resume_id : String)
    (sim : ℚ) : ℚ :=
  if job_id ∈ db.jobs ∧ resume_id ∈ db.resumes then sim else 0

/-- `Shortlister.evaluate_detailed_match` (lines 170–235) composed with the
`.get("overall_score", 0.0)` read at line 244: yields the judge's
`overall_score` when both entities exist and the judge produced one, and `0.0`
on every failure path (LLM uninitialised, missing entities, call exception,
JSON decode error, missing key). -/
def evaluate_detailed_match (db : DB) (job_id resume_id : String)
    (judge : Option ℚ) : ℚ :=
  if job_id ∈ db.jobs ∧ resume_id ∈ db.resumes then judge.getD 0 else 0

/-- The `INSERT OR REPLACE INTO rankings` statement (lines 260–263): with the
`UNIQUE(resume_id, job_id)` constraint, SQLite deletes any conflicting row and
inserts the new one (fresh rowid, hence at the end in row order); only the
four listed columns are supplied, so the new row's `rank` is NULL. -/
def upsertRow (rows : List RankRow) (r : RankRow) : List RankRow :=
  rows.filter (fun x => !(x.resume_id = r.resume_id ∧ x.job_id = r.job_id : Bool)) ++ [r]

/-- The `ORDER BY match_score DESC` read at lines 266–270, over the rows of
the posting in rowid order: stable sort, descending score, ties in row
order (SQLite specifies no tie-break). -/
def sortDesc (rows : List RankRow) : List RankRow :=
  sortBy (fun a b => decide (b.match_score < a.match_score)) rows

/-- `enumerate(rankings, 1)` at line 275: the row at position `m` of the
sorted list is assigned rank `n + m`. -/
def assignRanks (n : Nat) : List RankRow → List RankRow
  | [] => []
  | x :: xs => { x with rank := some n } :: assignRanks (n + 1) xs

/-- One `UPDATE rankings SET rank = ? WHERE resume_id = ? AND job_id = ?`
step (lines 276–279), applied to a table row `x`: a row of posting `j` takes
the rank of the entry of the ranked list bearing its `resume_id` (under the
table's UNIQUE constraint the ids are distinct, so the first match is the
only match); every other row is untouched. -/
def applyRank (ranked : List RankRow) (j : String) (x : RankRow) : RankRow :=
  if x.job_id = j then
    match ranked.find? (fun r => decide (r.resume_id = x.resume_id)) with
    | some r => { x with rank := r.rank }
    | none => x
  else x

/-- The rank-update loop of `shortlist_candidate` (lines 264–279): read the
posting's rows sorted by descending score, enumerate them from 1, then run
one rank UPDATE per sorted entry. -/
def recompute_ranks (rows : List RankRow) (j : String) : List RankRow :=
  rows.map
    (applyRank (assignRanks 1 (sortDesc (rows.filter (fun r => decide (r.job_id = j))))) j)

/-- `Shortlister.shortlist_candidate` (lines 237–288).  Returns the updated
database together with the returned pair `(match_score, is_shortlisted)`.
The arithmetic is the source's: `llm_score = overall_score / 100.0`,
`combined_score = 0.6 * semantic + 0.4 * llm_score`,
`match_score = combined_score * 100`,
`is_shortlisted = match_score >= shortlist_threshold * 100`.  When
`storageFails` the `except` branch returns the same tuple and the implicit
transaction has rolled back, leaving the table as it was. -/
def shortlist_candidate (db : DB) (job_id resume_id : String) (sim : ℚ)
    (judge : Option ℚ) (storageFails : Bool) : DB × ℚ × Bool :=
  let semantic_score := evaluate_semantic_similarity db job_id resume_id sim
  let llm_score := evaluate_detailed_match db job_id resume_id judge / 100
  let combined_score := 0.6 * semantic_score + 0.4 * llm_score
  let match_score := combined_score * 100
  let is_shortlisted := decide (shortlist_threshold * 100 ≤ match_score)
  if storageFails then
    (db, match_score, is_shortlisted)
  else
    let rows1 := upsertRow db.rankings
      ⟨resume_id, job_id, match_score, none, is_shortlisted⟩
    ({ db with rankings := recompute_ranks rows1 job_id }, match_score, is_shortlisted)

/-! ### Basic facts about the storage step -/

theorem mem_upsertRow {rows : List RankRow} {r x : RankRow}
    (hx : x ∈ upsertRow rows r) :
    x = r ∨ (x ∈ rows ∧ ¬(x.resume_id = r.resume_id ∧ x.job_id = r.job_id)) := by
  rcases List.mem_append.1 hx with h | h
  · right
    refine ⟨(List.mem_filter.1 h).1, ?_⟩
    have := (List.mem_filter.1 h).2
    simp only [Bool.not_eq_true'] at this
    intro hc
    simp [hc.1, hc.2] at this
  · left; simpa using h

theorem self_mem_upsertRow (rows : List RankRow) (r : RankRow) :
    r ∈ upsertRow rows r :=
  List.mem_append.2 (Or.inr (List.mem_singleton.2 rfl))

/-- A rank UPDATE rewrites only the `rank` column. -/
theorem applyRank_fields (ranked : List RankRow) (j : String) (x : RankRow) :
    (applyRank ranked j x).resume_id = x.resume_id ∧
    (applyRank ranked j x).job_id = x.job_id ∧
    (applyRank ranked j x).match_score = x.match_score ∧
    (applyRank ranked j x).shortlisted = x.shortlisted := by
  unfold applyRank
  split
  · split <;> exact ⟨rfl, rfl, rfl, rfl⟩
  · exact ⟨rfl, rfl, rfl, rfl⟩

/-- Rank recomputation rewrites only the `rank` column: every row of the
input reappears with the same `resume_id`, `job_id`, `match_score` and
`shortlisted`. -/
theorem recompute_ranks_mem (rows : List RankRow) (j : String) (x : RankRow)
    (hx : x ∈ rows) :
    ∃ y ∈ recompute_ranks rows j, y.resume_id = x.resume_id ∧ y.job_id = x.job_id ∧
      y.match_score = x.match_score ∧ y.shortlisted = x.shortlisted :=
  ⟨_, List.mem_map_of_mem _ hx, applyRank_fields _ _ _⟩

/-- Conversely, every row after rank recomputation comes from an input row and
differs from it at most in the `rank` column. -/
theorem recompute_ranks_mem_rev (rows : List RankRow) (j : String) (y : RankRow)
    (hy : y ∈ recompute_ranks rows j) :
    ∃ x ∈ rows, y.resume_id = x.resume_id ∧ y.job_id = x.job_id ∧
      y.match_score = x.match_score ∧ y.shortlisted = x.shortlisted := by
  rcases List.mem_map.1 hy with ⟨x, hx, hxy⟩
  exact ⟨x, hx, hxy ▸ applyRank_fields _ _ _⟩

/-- On the success path, `shortlist_candidate` persists a row for the scored
pair carrying exactly the returned match score and shortlist flag. -/
theorem shortlist_candidate_persists (db : DB) (job_id resume_id : String)
    (sim : ℚ) (judge : Option ℚ) :
    ∃ row ∈ (shortlist_candidate db job_id resume_id sim judge false).1.rankings,
      row.resume_id = resume_id ∧ row.job_id = job_id ∧
      row.match_score = (shortlist_candidate db job_id resume_id sim judge false).2.1 ∧
      row.shortlisted = (shortlist_candidate db job_id resume_id sim judge false).2.2 := by
  obtain ⟨y, hy, h1, h2, h3, h4⟩ :=
    recompute_ranks_mem
      (upsertRow db.rankings
        ⟨resume_id, job_id,
          (0.6 * evaluate_semantic_similarity db job_id resume_id sim +
            0.4 * (evaluate_detailed_match db job_id resume_id judge / 100)) * 100, none,
          decide (shortlist_threshold * 100 ≤
            (0.6 * evaluate_semantic_similarity db job_id resume_id sim +
              0.4 * (evaluate_detailed_match db job_id resume_id judge / 100)) * 100)⟩)
      job_id _
      (self_mem_upsertRow _ _)
  exact ⟨y, hy, h1, h2, h3, h4⟩

/-! ### Claim theorems about `shortlist_candidate` -/

/-- **C1.** For every pair of canonical texts with semantic similarity `s` and
every judge `overall_score` `j ∈ [0,100]`, the match score computed (and
returned) by `Shortlister.shortlist_candidate` equals
`(0.6 * s + 0.4 * (j / 100)) * 100` exactly — rational arithmetic throughout,
no integer truncation anywhere. -/
theorem shortlist_candidate_score_formula (db : DB) (job_id resume_id : String)
    (s j : ℚ) (storageFails : Bool)
    (hjob : job_id ∈ db.jobs) (hres : resume_id ∈ db.resumes)
    (hj0 : 0 ≤ j) (hj1 : j ≤ 100) :
    (shortlist_candidate db job_id resume_id s (some j) storageFails).2.1 =
      (0.6 * s + 0.4 * (j / 100)) * 100 := by
  cases storageFails <;>
    simp [shortlist_candidate, evaluate_semantic_similarity,
      evaluate_detailed_match, hjob, hres]

theorem shortlist_candidate_score_formula_witness :
    (shortlist_candidate ⟨["j1"], ["r1"], []⟩ "j1" "r1" (1/2) (some 50) false).2.1 =
      (0.6 * (1/2 : ℚ) + 0.4 * (50 / 100)) * 100 :=
  shortlist_candidate_score_formula ⟨["j1"], ["r1"], []⟩ "j1" "r1" (1/2) 50 false
    (by simp) (by simp) (by norm_num) (by norm_num)

/-- **C2.** The returned shortlist flag is `true` iff the computed match
percentage is at least `80` (= `shortlist_threshold * 100` with the fixed
threshold `0.8`), and any stored row for the scored pair satisfies
`shortlisted = (match_score ≥ 80)`. -/
theorem shortlist_candidate_threshold (db : DB) (job_id resume_id : String)
    (sim : ℚ) (judge : Option ℚ) (storageFails : Bool) (row : RankRow)
    (hrow : row ∈ (shortlist_candidate db job_id resume_id sim judge false).1.rankings)
    (hrid : row.resume_id = resume_id) (hjid : row.job_id = job_id) :
    ((shortlist_candidate db job_id resume_id sim judge storageFails).2.2 = true ↔
      80 ≤ (shortlist_candidate db job_id resume_id sim judge storageFails).2.1) ∧
    (row.shortlisted = true ↔ 80 ≤ row.match_score) := by
  constructor
  · cases storageFails <;>
      · simp only [shortlist_candidate]
        norm_num [shortlist_threshold]
  · have hrow' : row ∈ recompute_ranks
        (upsertRow db.rankings
          ⟨resume_id, job_id,
            (0.6 * evaluate_semantic_similarity db job_id resume_id sim +
              0.4 * (evaluate_detailed_match db job_id resume_id judge / 100)) * 100, none,
            decide (shortlist_threshold * 100 ≤
              (0.6 * evaluate_semantic_similarity db job_id resume_id sim +
                0.4 * (evaluate_detailed_match db job_id resume_id judge / 100)) * 100)⟩)
        job_id := hrow
    obtain ⟨x, hx, h1, h2, h3, h4⟩ := recompute_ranks_mem_rev _ _ _ hrow'
    rcases mem_upsertRow hx with rfl | ⟨_, hne⟩
    · rw [h4, h3]
      norm_num [shortlist_threshold]
    · exact absurd (And.intro (h1.symm.trans hrid) (h2.symm.trans hjid)) hne

theorem shortlist_candidate_threshold_witness :
    (shortlist_candidate ⟨["j1"], ["r1"], []⟩ "j1" "r1" (1/2) (some 50) false).2.2 = true ↔
      80 ≤ (shortlist_candidate ⟨["j1"], ["r1"], []⟩ "j1" "r1" (1/2) (some 50) false).2.1 :=
  (shortlist_candidate_threshold ⟨["j1"], ["r1"], []⟩ "j1" "r1" (1/2) (some 50) false
    ⟨"r1", "j1", 50, some 1, false⟩
    (by
      norm_num [shortlist_candidate, evaluate_semantic_similarity,
        evaluate_detailed_match, upsertRow, recompute_ranks, applyRank, sortDesc,
        sortBy, assignRanks, insertBy, List.find?, List.filter, shortlist_threshold])
    rfl rfl).1

/-- **C5.** When the judge fails (exception, timeout, malformed payload —
all modelled by `judge = none`), the score degrades to `0.6 * semantic_score`
(times 100 as a percentage), the call still completes and a row for the pair
is persisted; no exception escapes (`shortlist_candidate` is total here). -/
theorem shortlist_candidate_judge_failure (db : DB) (job_id resume_id : String)
    (sim : ℚ) (hjob : job_id ∈ db.jobs) (hres : resume_id ∈ db.resumes) :
    (shortlist_candidate db job_id resume_id sim none false).2.1 =
      0.6 * sim * 100 ∧
    ∃ row ∈ (shortlist_candidate db job_id resume_id sim none false).1.rankings,
      row.resume_id = resume_id ∧ row.job_id = job_id ∧
      row.match_score = 0.6 * sim * 100 := by
  have hm : (shortlist_candidate db job_id resume_id sim none false).2.1 =
      0.6 * sim * 100 := by
    simp [shortlist_candidate, evaluate_semantic_similarity,
      evaluate_detailed_match, hjob, hres]
  refine ⟨hm, ?_⟩
  obtain ⟨row, hrow, h1, h2, h3, _⟩ :=
    shortlist_candidate_persists db job_id resume_id sim none
  exact ⟨row, hrow, h1, h2, h3.trans hm⟩

theorem shortlist_candidate_judge_failure_witness :
    (shortlist_candidate ⟨["j1"], ["r1"], []⟩ "j1" "r1" (1/2) none false).2.1 =
      0.6 * (1/2 : ℚ) * 100 :=
  (shortlist_candidate_judge_failure ⟨["j1"], ["r1"], []⟩ "j1" "r1" (1/2)
    (by simp) (by simp)).1

/-- **C6 (counterexample).** A run whose durable write fails returns exactly
the same value as the run whose write succeeds — here both return
`(50, false)` — and leaves the database as it was.  The caller is told
nothing: the claim that a failed write is surfaced (the operation not
reported as complete) is false at this input. -/
theorem shortlist_candidate_storage_failure_counterexample :
    (shortlist_candidate ⟨["j1"], ["r1"], []⟩ "j1" "r1" (1/2) (some 50) true).2 =
      (shortlist_candidate ⟨["j1"], ["r1"], []⟩ "j1" "r1" (1/2) (some 50) false).2 ∧
    (shortlist_candidate ⟨["j1"], ["r1"], []⟩ "j1" "r1" (1/2) (some 50) true).1 =
      ⟨["j1"], ["r1"], []⟩ ∧
    (shortlist_candidate ⟨["j1"], ["r1"], []⟩ "j1" "r1" (1/2) (some 50) true).2 =
      (50, false) := by
  refine ⟨rfl, rfl, ?_⟩
  norm_num [shortlist_candidate, evaluate_semantic_similarity,
    evaluate_detailed_match, shortlist_threshold]

/-- **C6 (amended).** When the durable write fails, the database — hence the
rank set — is left exactly as it was (the implicit SQLite transaction rolls
back, so no half-updated ranks), but the failure is *not* surfaced: the
`except` branch returns the same `(match_score, is_shortlisted)` pair as the
success path, so the caller cannot distinguish a failed write from a
completed one. -/
theorem shortlist_candidate_storage_failure (db : DB) (job_id resume_id : String)
    (sim : ℚ) (judge : Option ℚ) :
    (shortlist_candidate db job_id resume_id sim judge true).1 = db ∧
    (shortlist_candidate db job_id resume_id sim judge true).2 =
      (shortlist_candidate db job_id resume_id sim judge false).2 :=
  ⟨rfl, rfl⟩

/-- **C10.** When the job description or the resume is missing from the
database, `shortlist_candidate` does not raise: both scores default to `0`,
the call returns `(0.0, False)`, and a rankings row for the nonexistent pair
is still written (the `rankings` table's foreign keys are not enforced —
`PRAGMA foreign_keys` is never enabled). -/
theorem shortlist_candidate_missing_entities (db : DB) (job_id resume_id : String)
    (sim : ℚ) (judge : Option ℚ)
    (h : job_id ∉ db.jobs ∨ resume_id ∉ db.resumes) :
    (shortlist_candidate db job_id resume_id sim judge false).2 = (0, false) ∧
    ∃ row ∈ (shortlist_candidate db job_id resume_id sim judge false).1.rankings,
      row.resume_id = resume_id ∧ row.job_id = job_id ∧
      row.match_score = 0 ∧ row.shortlisted = false := by
  have hcond : ¬(job_id ∈ db.jobs ∧ resume_id ∈ db.resumes) := by
    rcases h with h | h <;> simp [h]
  have h2 : (shortlist_candidate db job_id resume_id sim judge false).2 = (0, false) := by
    simp [shortlist_candidate, evaluate_semantic_similarity,
      evaluate_detailed_match, hcond]
    norm_num [shortlist_threshold]
  refine ⟨h2, ?_⟩
  obtain ⟨row, hrow, hr1, hr2, hr3, hr4⟩ :=
    shortlist_candidate_persists db job_id resume_id sim judge
  refine ⟨row, hrow, hr1, hr2, ?_, ?_⟩
  · rw [hr3, show (shortlist_candidate db job_id resume_id sim judge false).2.1 = 0
      from congrArg Prod.fst h2]
  · rw [hr4, show (shortlist_candidate db job_id resume_id sim judge false).2.2 = false
      from congrArg Prod.snd h2]

theorem shortlist_candidate_missing_entities_witness :
    (shortlist_candidate ⟨[], [], []⟩ "j1" "r1" (1/2) (some 50) false).2 = (0, false) :=
  (shortlist_candidate_missing_entities ⟨[], [], []⟩ "j1" "r1" (1/2) (some 50)
    (Or.inl (by simp))).1

/-! ### Rank recomputation: permutation and ordering (claim C3) -/

theorem assignRanks_length (l : List RankRow) : ∀ n, (assignRanks n l).length = l.length := by
  induction l with
  | nil => intro n; rfl
  | cons x xs ih => intro n; simp [assignRanks, ih]

theorem assignRanks_getElem (l : List RankRow) :
    ∀ (n i : Nat) (h : i < l.length) (h2 : i < (assignRanks n l).length),
      (assignRanks n l).get ⟨i, h2⟩ = { l.get ⟨i, h⟩ with rank := some (n + i) } := by
  induction l with
  | nil => intro n i h h2; exact absurd h (Nat.not_lt_zero i)
  | cons x xs ih =>
    intro n i h h2
    cases i with
    | zero => rfl
    | succ m =>
      have hm : m < xs.length := by simpa using h
      have hm2 : m < (assignRanks (n + 1) xs).length := by
        rw [assignRanks_length]; exact hm
      have step : (assignRanks n (x :: xs)).get ⟨m + 1, h2⟩ =
          (assignRanks (n + 1) xs).get ⟨m, hm2⟩ := rfl
      rw [step, ih (n + 1) m hm hm2]
      have harith : n + 1 + m = n + (m + 1) := by omega
      rw [harith]
      rfl

theorem assignRanks_map_rank (l : List RankRow) :
    ∀ n, (assignRanks n l).map (fun r => r.rank) =
      (List.range l.length).map (fun i => some (n + i)) := by
  induction l with
  | nil => intro n; rfl
  | cons x xs ih =>
    intro n
    simp only [assignRanks, List.map_cons, List.length_cons, List.range_succ_eq_map,
      ih (n + 1), List.map_map]
    refine congrArg₂ _ (by simp) (List.map_congr_left ?_)
    intro a _
    simp only [Function.comp_apply]
    congr 1
    omega

theorem assignRanks_find? :
    ∀ (S : List RankRow), ∀ x ∈ S, ((S.map (fun r => r.resume_id)).Nodup) → ∀ n,
      (assignRanks n S).find? (fun r => decide (r.resume_id = x.resume_id)) =
        some { x with rank := some (n + S.indexOf x) } := by
  intro S
  induction S with
  | nil => intro x hx; cases hx
  | cons y ys ih =>
    intro x hx hnd n
    rw [List.map_cons] at hnd
    rcases List.nodup_cons.1 hnd with ⟨hy_nin, hnd'⟩
    by_cases h : y.resume_id = x.resume_id
    · have hxy : x = y := by
        rcases List.mem_cons.1 hx with rfl | hx'
        · rfl
        · exact absurd (by rw [h]; exact List.mem_map_of_mem _ hx') hy_nin
      subst hxy
      rw [show assignRanks n (x :: ys) = { x with rank := some n } :: assignRanks (n + 1) ys
        from rfl]
      rw [List.find?_cons_of_pos _ (by simp)]
      simp [List.indexOf_cons_self]
    · have hxy : x ≠ y := fun he => h (by rw [he])
      have hx' : x ∈ ys := by
        rcases List.mem_cons.1 hx with rfl | hx'
        · exact absurd rfl h
        · exact hx'
      rw [show assignRanks n (y :: ys) = { y with rank := some n } :: assignRanks (n + 1) ys
        from rfl]
      rw [List.find?_cons_of_neg _ (by simp [h])]
      rw [ih x hx' hnd' (n + 1)]
      rw [List.indexOf_cons_ne _ (fun he => hxy he.symm)]
      have harith : n + 1 + List.indexOf x ys = n + (List.indexOf x ys).succ := by omega
      rw [harith]

theorem map_indexOf_eq_assignRanks :
    ∀ (S : List RankRow), S.Nodup → ∀ n,
      S.map (fun x => { x with rank := some (n + S.indexOf x) }) = assignRanks n S := by
  intro S
  induction S with
  | nil => intro _ n; rfl
  | cons y ys ih =>
    intro hnd n
    rcases List.nodup_cons.1 hnd with ⟨hy, hnd'⟩
    simp only [List.map_cons, assignRanks]
    refine congrArg₂ _ (by simp [List.indexOf_cons_self]) ?_
    rw [← ih hnd' (n + 1)]
    refine List.map_congr_left ?_
    intro a ha
    have hay : a ≠ y := fun he => hy (he ▸ ha)
    rw [List.indexOf_cons_ne _ (fun he => hay he.symm)]
    have harith : n + (List.indexOf a ys).succ = n + 1 + List.indexOf a ys := by omega
    rw [harith]

theorem filter_map_of_pres {α : Type} (g : α → α) (P : α → Bool)
    (hg : ∀ x, P (g x) = P x) (rows : List α) :
    (rows.map g).filter P = (rows.filter P).map g := by
  induction rows with
  | nil => rfl
  | cons x xs ih =>
    by_cases h : P x
    · simp [List.filter_cons, hg, h, ih]
    · simp [List.filter_cons, hg, h, ih]

theorem sortDesc_perm (rows : List RankRow) : (sortDesc rows).Perm rows :=
  sortBy_perm _ rows

theorem sortDesc_pairwise (rows : List RankRow) :
    (sortDesc rows).Pairwise (fun a b => b.match_score ≤ a.match_score) := by
  refine sortBy_pairwise _ (fun _ _ => True) _ rows ?_ ?_ ?_ (list_pairwise_true rows)
  · exact fun a b c hab hbc => le_trans hbc hab
  · intro a b h; exact le_of_lt (of_decide_eq_true h)
  · intro a b _ h; exact le_of_not_lt (of_decide_eq_false h)

/-- Under the UNIQUE constraint (distinct `resume_id`s among a posting's
rows), the rows of posting `j` after rank recomputation are a permutation of
the sorted rows annotated with ranks 1, 2, 3, … -/
theorem recompute_ranks_filter_perm (rows : List RankRow) (j : String)
    (hnd : ((rows.filter (fun r => decide (r.job_id = j))).map
      (fun r => r.resume_id)).Nodup) :
    ((recompute_ranks rows j).filter (fun r => decide (r.job_id = j))).Perm
      (assignRanks 1 (sortDesc (rows.filter (fun r => decide (r.job_id = j))))) := by
  have hSL : (sortDesc (rows.filter (fun r => decide (r.job_id = j)))).Perm
      (rows.filter (fun r => decide (r.job_id = j))) := sortDesc_perm _
  have hndL : (rows.filter (fun r => decide (r.job_id = j))).Nodup :=
    List.Nodup.of_map _ hnd
  have hndS : (sortDesc (rows.filter (fun r => decide (r.job_id = j)))).Nodup :=
    hSL.nodup_iff.2 hndL
  have hndSids : ((sortDesc (rows.filter (fun r => decide (r.job_id = j)))).map
      (fun r => r.resume_id)).Nodup := ((hSL.map _).nodup_iff).2 hnd
  have h1 : (recompute_ranks rows j).filter (fun r => decide (r.job_id = j)) =
      (rows.filter (fun r => decide (r.job_id = j))).map
        (applyRank (assignRanks 1 (sortDesc (rows.filter (fun r => decide (r.job_id = j))))) j) := by
    simp only [recompute_ranks]
    exact filter_map_of_pres _ _ (fun x => by simp [(applyRank_fields _ _ _).2.1]) rows
  have happ : ∀ x ∈ rows.filter (fun r => decide (r.job_id = j)),
      applyRank (assignRanks 1 (sortDesc (rows.filter (fun r => decide (r.job_id = j))))) j x =
        { x with rank := some (1 +
          (sortDesc (rows.filter (fun r => decide (r.job_id = j)))).indexOf x) } := by
    intro x hxL
    have hxj : x.job_id = j := of_decide_eq_true (List.mem_filter.1 hxL).2
    have hxS : x ∈ sortDesc (rows.filter (fun r => decide (r.job_id = j))) :=
      hSL.mem_iff.2 hxL
    unfold applyRank
    rw [if_pos hxj, assignRanks_find? _ x hxS hndSids 1]
  rw [h1, List.map_congr_left happ,
    ← map_indexOf_eq_assignRanks _ hndS 1]
  exact hSL.symm.map _

/-- **C3 (counterexample).** Profile `"b"` and then profile `"a"` are scored
against posting `"j1"` with identical inputs, hence identical match scores
`50`.  The recomputation inside the second `shortlist_candidate` call ranks
`"b"` first (rank 1) and `"a"` second (rank 2): ties follow table row order
(the SQL `ORDER BY match_score DESC` has no tie-break clause), so the claimed
tie-break by ascending profile id — which would rank `"a" < "b"` first — does
not hold. -/
theorem recompute_ranks_tie_counterexample :
    (shortlist_candidate
      (shortlist_candidate ⟨["j1"], ["a", "b"], []⟩ "j1" "b" (1/2) (some 50) false).1
      "j1" "a" (1/2) (some 50) false).1.rankings
    = [⟨"b", "j1", 50, some 1, false⟩, ⟨"a", "j1", 50, some 2, false⟩] := by
  norm_num [shortlist_candidate, evaluate_semantic_similarity, evaluate_detailed_match,
    upsertRow, recompute_ranks, applyRank, sortDesc, sortBy, assignRanks, insertBy,
    List.find?, List.filter, shortlist_threshold]
  rfl

/-- **C3 (amended).** After N upserts of distinct profiles against one
posting (modelled as: the posting's rows carry pairwise-distinct
`resume_id`s), the recomputation performed inside
`Shortlister.shortlist_candidate` assigns ranks that are a permutation of
1..N with no gaps or duplicates, ordered by descending match score; ties are
broken by table row order (insertion/upsert order), not by ascending profile
id. -/
theorem recompute_ranks_rank_assignment (rows : List RankRow) (j : String)
    (hnd : ((rows.filter (fun r => decide (r.job_id = j))).map
      (fun r => r.resume_id)).Nodup) :
    (((recompute_ranks rows j).filter (fun r => decide (r.job_id = j))).map
        (fun r => r.rank)).Perm
      ((List.range (rows.filter (fun r => decide (r.job_id = j))).length).map
        (fun i => some (i + 1))) ∧
    (∀ x ∈ (recompute_ranks rows j).filter (fun r => decide (r.job_id = j)),
      ∀ y ∈ (recompute_ranks rows j).filter (fun r => decide (r.job_id = j)),
      ∀ ix iy : Nat, x.rank = some ix → y.rank = some iy → ix ≤ iy →
        y.match_score ≤ x.match_score) := by
  have hperm := recompute_ranks_filter_perm rows j hnd
  have hSL : (sortDesc (rows.filter (fun r => decide (r.job_id = j)))).Perm
      (rows.filter (fun r => decide (r.job_id = j))) := sortDesc_perm _
  constructor
  · have h := hperm.map (fun r => r.rank)
    rw [assignRanks_map_rank _ 1] at h
    refine h.trans ?_
    rw [hSL.length_eq]
    exact List.Perm.of_eq (List.map_congr_left (fun i _ => by rw [Nat.add_comm]))
  · intro x hx y hy ix iy hix hiy hle
    have hxA : x ∈ assignRanks 1 (sortDesc (rows.filter (fun r => decide (r.job_id = j)))) :=
      hperm.mem_iff.1 hx
    have hyA : y ∈ assignRanks 1 (sortDesc (rows.filter (fun r => decide (r.job_id = j)))) :=
      hperm.mem_iff.1 hy
    rcases List.mem_iff_get.1 hxA with ⟨⟨m, hm⟩, hgm⟩
    rcases List.mem_iff_get.1 hyA with ⟨⟨m', hm2⟩, hgm2⟩
    have hmS : m < (sortDesc (rows.filter (fun r => decide (r.job_id = j)))).length := by
      rwa [assignRanks_length] at hm
    have hmS2 : m' < (sortDesc (rows.filter (fun r => decide (r.job_id = j)))).length := by
      rwa [assignRanks_length] at hm2
    have hxval : x = { (sortDesc (rows.filter (fun r => decide (r.job_id = j)))).get
        ⟨m, hmS⟩ with rank := some (1 + m) } := by
      rw [← hgm]
      exact assignRanks_getElem _ 1 m hmS hm
    have hyval : y = { (sortDesc (rows.filter (fun r => decide (r.job_id = j)))).get
        ⟨m', hmS2⟩ with rank := some (1 + m') } := by
      rw [← hgm2]
      exact assignRanks_getElem _ 1 m' hmS2 hm2
    have hxm : ix = 1 + m := by
      rw [hxval] at hix
      exact (Option.some_injective _ hix).symm
    have hym : iy = 1 + m' := by
      rw [hyval] at hiy
      exact (Option.some_injective _ hiy).symm
    have hscx : x.match_score =
        ((sortDesc (rows.filter (fun r => decide (r.job_id = j)))).get
          ⟨m, hmS⟩).match_score := by
      rw [hxval]
    have hscy : y.match_score =
        ((sortDesc (rows.filter (fun r => decide (r.job_id = j)))).get
          ⟨m', hmS2⟩).match_score := by
      rw [hyval]
    rcases Nat.lt_or_ge m m' with hlt | hge
    · have hsort := List.pairwise_iff_getElem.1
        (sortDesc_pairwise (rows.filter (fun r => decide (r.job_id = j)))) m m' hmS hmS2 hlt
      rw [hscx, hscy]
      exact hsort
    · have hmeq : m = m' := by omega
      subst hmeq
      rw [hscx, hscy]

theorem recompute_ranks_rank_assignment_witness :
    ((([⟨"b", "j1", 50, none, false⟩, ⟨"a", "j1", 60, none, true⟩] :
        List RankRow).filter (fun r => decide (r.job_id = "j1"))).map
      (fun r => r.resume_id)).Nodup ∧
    (((recompute_ranks [⟨"b", "j1", 50, none, false⟩, ⟨"a", "j1", 60, none, true⟩]
        "j1").filter (fun r => decide (r.job_id = "j1"))).map (fun r => r.rank)).Perm
      ((List.range (([⟨"b", "j1", 50, none, false⟩, ⟨"a", "j1", 60, none, true⟩] :
        List RankRow).filter (fun r => decide (r.job_id = "j1"))).length).map
          (fun i => some (i + 1))) :=
  ⟨by simp, (recompute_ranks_rank_assignment
    [⟨"b", "j1", 50, none, false⟩, ⟨"a", "j1", 60, none, true⟩] "j1" (by simp)).1⟩

/-! ### Upsert keeps one row per (profile, posting) pair (claim C9) -/

theorem recompute_ranks_map_key (rows : List RankRow) (j : String) :
    (recompute_ranks rows j).map (fun r => (r.resume_id, r.job_id)) =
      rows.map (fun r => (r.resume_id, r.job_id)) := by
  simp only [recompute_ranks, List.map_map]
  refine List.map_congr_left ?_
  intro x _
  simp only [Function.comp_apply]
  rw [(applyRank_fields _ _ _).1, (applyRank_fields _ _ _).2.1]

theorem upsertRow_map_key_nodup (rows : List RankRow) (r : RankRow)
    (hnd : (rows.map (fun x => (x.resume_id, x.job_id))).Nodup) :
    ((upsertRow rows r).map (fun x => (x.resume_id, x.job_id))).Nodup := by
  unfold upsertRow
  rw [List.map_append]
  refine List.nodup_append.2 ⟨?_, by simp, ?_⟩
  · exact hnd.sublist ((List.filter_sublist rows).map _)
  · intro p hp hq
    simp only [List.map_cons, List.map_nil, List.mem_singleton] at hq
    subst hq
    rcases List.mem_map.1 hp with ⟨x, hx, hkey⟩
    have := (List.mem_filter.1 hx).2
    simp only [Bool.not_eq_true'] at this
    have h1 : x.resume_id = r.resume_id := congrArg Prod.fst hkey
    have h2 : x.job_id = r.job_id := congrArg Prod.snd hkey
    simp [h1, h2] at this

/-- **C9.** Starting from a table satisfying the `UNIQUE(resume_id, job_id)`
constraint, a scoring run keeps the keys unique (`INSERT OR REPLACE` deletes
the conflicting row before inserting), exactly one row for the written pair
remains, and that row carries the newly computed match score — no stale
duplicate survives a re-upsert. -/
theorem shortlist_candidate_upsert_unique (db : DB) (job_id resume_id : String)
    (sim : ℚ) (judge : Option ℚ)
    (hnd : (db.rankings.map (fun r => (r.resume_id, r.job_id))).Nodup) :
    ((shortlist_candidate db job_id resume_id sim judge false).1.rankings.map
        (fun r => (r.resume_id, r.job_id))).Nodup ∧
    ((shortlist_candidate db job_id resume_id sim judge false).1.rankings.countP
        (fun r => decide (r.resume_id = resume_id ∧ r.job_id = job_id))) = 1 ∧
    ∀ row ∈ (shortlist_candidate db job_id resume_id sim judge false).1.rankings,
      row.resume_id = resume_id → row.job_id = job_id →
      row.match_score = (shortlist_candidate db job_id resume_id sim judge false).2.1 := by
  refine ⟨?_, ?_, ?_⟩
  · show ((recompute_ranks (upsertRow db.rankings _) job_id).map
      (fun r => (r.resume_id, r.job_id))).Nodup
    rw [recompute_ranks_map_key]
    exact upsertRow_map_key_nodup db.rankings _ hnd
  · show ((recompute_ranks (upsertRow db.rankings _) job_id).countP
      (fun r => decide (r.resume_id = resume_id ∧ r.job_id = job_id))) = 1
    rw [recompute_ranks, List.countP_map]
    rw [List.countP_congr (fun x _ => by
      simp only [Function.comp_apply]
      rw [(applyRank_fields _ _ _).1, (applyRank_fields _ _ _).2.1])]
    unfold upsertRow
    rw [List.countP_append]
    have hz : (db.rankings.filter (fun x =>
        !(x.resume_id = resume_id ∧ x.job_id = job_id : Bool))).countP
        (fun r => decide (r.resume_id = resume_id ∧ r.job_id = job_id)) = 0 := by
      rw [List.countP_eq_zero]
      intro a ha hp
      have hfp := (List.mem_filter.1 ha).2
      simp only [Bool.not_eq_true'] at hfp
      have hp' := of_decide_eq_true hp
      simp [hp'.1, hp'.2] at hfp
    rw [hz]
    simp
  · intro row hrow hr hj
    obtain ⟨x, hx, h1, h2, h3, _⟩ := recompute_ranks_mem_rev _ _ _ hrow
    rcases mem_upsertRow hx with rfl | ⟨_, hne⟩
    · exact h3
    · exact absurd (And.intro (h1.symm.trans hr) (h2.symm.trans hj)) hne

theorem shortlist_candidate_upsert_unique_witness :
    ((shortlist_candidate ⟨["j1"], ["r1"], []⟩ "j1" "r1" (1/2) (some 50)
        false).1.rankings.countP
      (fun r => decide (r.resume_id = "r1" ∧ r.job_id = "j1"))) = 1 :=
  (shortlist_candidate_upsert_unique ⟨["j1"], ["r1"], []⟩ "j1" "r1" (1/2) (some 50)
    (by simp)).2.1

/-! ## The embedding service (`utils/embedding_utils.py`)

### `calculate_similarity` (claim C4)

`EmbeddingService.calculate_similarity` (lines 152–163) normalizes each
embedding by its `np.linalg.norm` and returns the dot product of the two unit
vectors.  Embeddings are modelled as real vectors (`List ℝ`); the encoder is
opaque, so the theorems quantify over the vectors it could produce. -/

/-- `np.dot a b` — sum of coordinatewise products. -/
noncomputable def dotR (a b : List ℝ) : ℝ :=
  (List.zipWith (fun x y => x * y) a b).sum

/-- `np.linalg.norm a` — the Euclidean norm. -/
noncomputable def normR (a : List ℝ) : ℝ :=
  Real.sqrt (dotR a a)

/-- `EmbeddingService.calculate_similarity` (lines 152–163): divide each
vector by its norm, then take the dot product.  No clamping of any kind is
applied to the result. -/
noncomputable def calculate_similarity (a b : List ℝ) : ℝ :=
  dotR (a.map (fun x => x / normR a)) (b.map (fun y => y / normR b))

theorem dotR_map_div (c d : ℝ) :
    ∀ (a b : List ℝ), dotR (a.map (fun x => x / c)) (b.map (fun y => y / d)) =
      dotR a b / (c * d) := by
  intro a
  induction a with
  | nil => intro b; simp [dotR]
  | cons x xs ih =>
    intro b
    cases b with
    | nil => simp [dotR]
    | cons y ys =>
      simp only [List.map_cons, dotR, List.zipWith_cons_cons, List.sum_cons]
      rw [show ((List.zipWith (fun x y => x * y) (xs.map (fun x => x / c))
          (ys.map (fun y => y / d))).sum : ℝ) = dotR (xs.map (fun x => x / c))
          (ys.map (fun y => y / d)) from rfl]
      rw [ih ys]
      rw [show ((List.zipWith (fun x y => x * y) xs ys).sum : ℝ) = dotR xs ys from rfl]
      rw [div_mul_div_comm, add_div]

/-- **C4 (counterexample).** The embeddings `[3, 4]` and `[-3, -4]` have
cosine similarity `-1`; `calculate_similarity` returns `-1`, a negative
value, not the `0` the claimed clamp to `[0, 1]` would produce — the code
performs no clamping. -/
theorem calculate_similarity_counterexample :
    calculate_similarity [(3 : ℝ), 4] [(-3 : ℝ), -4] = -1 ∧ ((-1 : ℝ) < 0) := by
  refine ⟨?_, by norm_num⟩
  have hd : dotR [(3 : ℝ), 4] [(3 : ℝ), 4] = 25 := by
    simp [dotR]; norm_num
  have hd' : dotR [(-3 : ℝ), -4] [(-3 : ℝ), -4] = 25 := by
    simp [dotR]; norm_num
  have hn : normR [(3 : ℝ), 4] = 5 := by
    rw [normR, hd, show (25 : ℝ) = 5 ^ 2 by norm_num,
      Real.sqrt_sq (by norm_num : (0 : ℝ) ≤ 5)]
  have hn' : normR [(-3 : ℝ), -4] = 5 := by
    rw [normR, hd', show (25 : ℝ) = 5 ^ 2 by norm_num,
      Real.sqrt_sq (by norm_num : (0 : ℝ) ≤ 5)]
  rw [calculate_similarity, hn, hn', dotR_map_div]
  simp [dotR]
  norm_num

/-- **C4 (amended).** `calculate_similarity` computes the exact cosine
similarity `dot(a,b) / (‖a‖ · ‖b‖)` of the two embeddings, but does **not**
clamp it to `[0,1]`: a negative cosine is returned as a negative similarity
(see the counterexample). -/
theorem calculate_similarity_eq_cosine (a b : List ℝ) :
    calculate_similarity a b = dotR a b / (normR a * normR b) :=
  dotR_map_div (normR a) (normR b) a b

/-! ### The FAISS-backed vector index (claims C7 and C8)

One collection = one FAISS flat index plus its metadata mapping, kept in
lockstep: the metadata dictionary of the source is keyed by `str(index_id)`
with `index_id = ntotal` at insertion time, so it is faithfully a list
indexed by ordinal.  The attribute bag stored next to each external id plays
no role in any claim and is omitted. -/

structure EmbCollection where
  vecs : List (List ℚ)
  ids : List String
deriving DecidableEq

/-- `EmbeddingService.add_jd_embedding` (lines 58–79): `index_id =
self.jd_index.ntotal`; append the embedding to the index; store the metadata
under `str(index_id)`; write both out; return `index_id`.  The text parameter
enters as its embedding `v` (the encoder is opaque).  There is no check of
any kind against `jd_id`s already present. -/
def add_jd_embedding (c : EmbCollection) (jd_id : String) (v : List ℚ) :
    EmbCollection × Nat :=
  (⟨c.vecs ++ [v], c.ids ++ [jd_id]⟩, c.vecs.length)

/-- `EmbeddingService.add_resume_embedding` (lines 81–102): identical to
`add_jd_embedding` but for the resume collection. -/
def add_resume_embedding (c : EmbCollection) (resume_id : String) (v : List ℚ) :
    EmbCollection × Nat :=
  (⟨c.vecs ++ [v], c.ids ++ [resume_id]⟩, c.vecs.length)

/-- **C7 (counterexample).** Inserting an external id that is already present
in the collection's metadata does not fail and does not leave the index
unchanged: the index grows from one vector to two, and the duplicate id is
stored again under the fresh ordinal 1. -/
theorem add_jd_embedding_duplicate_counterexample :
    "x" ∈ (⟨[[1]], ["x"]⟩ : EmbCollection).ids ∧
    (add_jd_embedding ⟨[[1]], ["x"]⟩ "x" [2]).1.vecs.length = 2 ∧
    (add_jd_embedding ⟨[[1]], ["x"]⟩ "x" [2]).1 ≠ (⟨[[1]], ["x"]⟩ : EmbCollection) ∧
    (add_jd_embedding ⟨[[1]], ["x"]⟩ "x" [2]).1.ids = ["x", "x"] :=
  ⟨by simp, rfl,
    fun h => absurd (congrArg (fun c => c.vecs.length) h) (by decide), rfl⟩

/-- **C7 (amended).** Neither `add_jd_embedding` nor `add_resume_embedding`
performs a duplicate check: even when the given external id is already
present in the collection's metadata, the insert succeeds, returns the fresh
ordinal `ntotal`, and appends the vector and the metadata entry (the index is
changed, nothing is rejected). -/
theorem add_embedding_no_duplicate_check (c : EmbCollection) (i : String)
    (v : List ℚ) (h : i ∈ c.ids) :
    (add_jd_embedding c i v).2 = c.vecs.length ∧
    (add_jd_embedding c i v).1.vecs = c.vecs ++ [v] ∧
    (add_jd_embedding c i v).1.ids = c.ids ++ [i] ∧
    (add_resume_embedding c i v).2 = c.vecs.length ∧
    (add_resume_embedding c i v).1.vecs = c.vecs ++ [v] ∧
    (add_resume_embedding c i v).1.ids = c.ids ++ [i] :=
  ⟨rfl, rfl, rfl, rfl, rfl, rfl⟩

theorem add_embedding_no_duplicate_check_witness :
    (add_jd_embedding ⟨[[1]], ["x"]⟩ "x" [2]).2 = 1 ∧
    (add_resume_embedding ⟨[[1]], ["x"]⟩ "x" [2]).1.ids = ["x", "x"] :=
  ⟨(add_embedding_no_duplicate_check ⟨[[1]], ["x"]⟩ "x" [2] (by simp)).1,
    (add_embedding_no_duplicate_check ⟨[[1]], ["x"]⟩ "x" [2] (by simp)).2.2.2.2.2⟩

/-- Squared L2 distance, the metric FAISS's `IndexFlatL2` reports; ordering
by squared Euclidean distance coincides with ordering by Euclidean
distance. -/
def sqDist (a b : List ℚ) : ℚ :=
  (List.zipWith (fun x y => (x - y) * (x - y)) a b).sum

/-- Modelled from the spec: the `faiss` `IndexFlatL2.search` call (line 113)
is library code outside this repository.  Per §4.1 of the spec, `nearest`
returns up to `k` records by ascending distance with ties broken by
ascending ordinal, and a non-positive `k` is rejected (faiss raises for
`k <= 0`). -/
def faissSearch (vecs : List (List ℚ)) (q : List ℚ) (k : ℤ) :
    Except String (List (Nat × ℚ)) :=
  if k ≤ 0 then .error "k must be positive"
  else .ok ((sortBy (fun a b => decide (a.2 < b.2))
      (vecs.enum.map (fun p => (p.1, sqDist q p.2)))).take k.toNat)

/-- `EmbeddingService.search_similar_jds` (lines 104–126): empty index →
empty result before any search; otherwise search with `min(k, ntotal)` and
report each hit as `(index_id, similarity = 1 - distance)` (line 123).  The
`idx != -1` filter never fires for an exhaustive flat search with
`k' ≤ ntotal` and is dropped. -/
def search_similar_jds (c : EmbCollection) (q : List ℚ) (k : ℤ) :
    Except String (List (Nat × ℚ)) :=
  if c.vecs.length = 0 then .ok []
  else
    match faissSearch c.vecs q (min k (c.vecs.length : ℤ)) with
    | .error e => .error e
    | .ok res => .ok (res.map (fun p => (p.1, 1 - p.2)))

/-- `EmbeddingService.search_similar_resumes` (lines 128–150): identical to
`search_similar_jds` but over the resume collection. -/
def search_similar_resumes (c : EmbCollection) (q : List ℚ) (k : ℤ) :
    Except String (List (Nat × ℚ)) :=
  if c.vecs.length = 0 then .ok []
  else
    match faissSearch c.vecs q (min k (c.vecs.length : ℤ)) with
    | .error e => .error e
    | .ok res => .ok (res.map (fun p => (p.1, 1 - p.2)))

theorem enumDist_pairwise_fst (vecs : List (List ℚ)) (q : List ℚ) :
    (vecs.enum.map (fun p => (p.1, sqDist q p.2))).Pairwise
      (fun a b : Nat × ℚ => a.1 < b.1) := by
  rw [List.pairwise_iff_getElem]
  intro i j hi hj hij
  have hi' : i < vecs.enum.length := by simpa using hi
  have hj' : j < vecs.enum.length := by simpa using hj
  simp only [List.getElem_map, List.getElem_enum]
  exact hij

theorem faissSort_pairwise (vecs : List (List ℚ)) (q : List ℚ) :
    (sortBy (fun a b : Nat × ℚ => decide (a.2 < b.2))
        (vecs.enum.map (fun p => (p.1, sqDist q p.2)))).Pairwise
      (fun a b : Nat × ℚ => a.2 < b.2 ∨ (a.2 = b.2 ∧ a.1 < b.1)) := by
  refine sortBy_pairwise _ (fun a b : Nat × ℚ => a.1 < b.1) _ _ ?_ ?_ ?_
    (enumDist_pairwise_fst vecs q)
  · rintro a b c (hab | ⟨hab, hab'⟩) (hbc | ⟨hbc, hbc'⟩)
    · exact Or.inl (hab.trans hbc)
    · exact Or.inl (hbc ▸ hab)
    · exact Or.inl (hab ▸ hbc)
    · exact Or.inr ⟨hab.trans hbc, hab'.trans hbc'⟩
  · intro a b h; exact Or.inl (of_decide_eq_true h)
  · intro a b hq h
    rcases lt_or_eq_of_le (le_of_not_lt (of_decide_eq_false h)) with h' | h'
    · exact Or.inl h'
    · exact Or.inr ⟨h', hq⟩

/-- **C8 (counterexample).** With an empty collection and `k = 0`, the search
returns the empty list — the early-return for an empty index fires before any
`k` check (and no `k <= 0` validation exists anywhere in the function), so
the claimed `InvalidArgument` failure for `k <= 0` does not happen here. -/
theorem search_similar_jds_k_zero_counterexample :
    search_similar_jds ⟨[], []⟩ [] 0 = .ok [] := rfl

/-- **C8 (amended).** `search_similar_jds` returns the empty sequence
whenever the collection is empty — for every `k`, including `k ≤ 0`; for a
nonempty collection a non-positive `k` reaches the faiss call, which raises
(an untyped error, not a dedicated `InvalidArgument`); and every successful
result holds at most `k` records sorted by non-decreasing distance —
equivalently non-increasing reported similarity `1 - distance` — with ties
broken by ascending ordinal. -/
theorem search_similar_jds_behaviour (c : EmbCollection) (q : List ℚ) (k : ℤ) :
    (c.vecs.length = 0 → search_similar_jds c q k = .ok []) ∧
    (k ≤ 0 → c.vecs.length ≠ 0 →
      search_similar_jds c q k = .error "k must be positive") ∧
    (0 < k → ∀ res, search_similar_jds c q k = .ok res →
      (res.length : ℤ) ≤ k ∧
      res.Pairwise (fun a b : Nat × ℚ => b.2 < a.2 ∨ (a.2 = b.2 ∧ a.1 < b.1))) := by
  refine ⟨?_, ?_, ?_⟩
  · intro h
    rw [search_similar_jds, if_pos h]
  · intro hk hne
    have hmin : min k (c.vecs.length : ℤ) ≤ 0 := le_trans (min_le_left _ _) hk
    rw [search_similar_jds, if_neg hne, faissSearch, if_pos hmin]
  · intro hk res hres
    by_cases hlen : c.vecs.length = 0
    · rw [search_similar_jds, if_pos hlen] at hres
      injection hres with h
      subst h
      exact ⟨by simpa using le_of_lt hk, List.Pairwise.nil⟩
    · have hpos : (0 : ℤ) < (c.vecs.length : ℤ) := by
        exact_mod_cast Nat.pos_of_ne_zero hlen
      have hmin : 0 < min k (c.vecs.length : ℤ) := lt_min hk hpos
      rw [search_similar_jds, if_neg hlen, faissSearch, if_neg (not_le.2 hmin)] at hres
      injection hres with h
      subst h
      constructor
      · have h1 : ((sortBy (fun a b : Nat × ℚ => decide (a.2 < b.2))
            (c.vecs.enum.map (fun p => (p.1, sqDist q p.2)))).take
              (min k (c.vecs.length : ℤ)).toNat).length ≤
            (min k (c.vecs.length : ℤ)).toNat := by
          rw [List.length_take]
          exact min_le_left _ _
        rw [List.length_map]
        omega
      · refine List.Pairwise.map _ ?_
          ((faissSort_pairwise c.vecs q).sublist (List.take_sublist _ _))
        rintro a b (hab | ⟨hab, hab'⟩)
        · exact Or.inl (by simpa using sub_lt_sub_left hab 1)
        · exact Or.inr ⟨by simpa using hab, hab'⟩

theorem search_similar_jds_behaviour_witness :
    search_similar_jds ⟨[[0], [1]], ["a", "b"]⟩ [0] 5 =
      .ok [((0 : Nat), (1 : ℚ)), (1, 0)] ∧
    ((([((0 : Nat), (1 : ℚ)), (1, 0)]).length : ℤ) ≤ 5 ∧
      ([((0 : Nat), (1 : ℚ)), (1, 0)]).Pairwise
        (fun a b : Nat × ℚ => b.2 < a.2 ∨ (a.2 = b.2 ∧ a.1 < b.1))) := by
  have heval : search_similar_jds ⟨[[0], [1]], ["a", "b"]⟩ [0] 5 =
      .ok [((0 : Nat), (1 : ℚ)), (1, 0)] := by
    norm_num [search_similar_jds, faissSearch, sqDist, sortBy, insertBy,
      List.enum, List.enumFrom]
  exact ⟨heval,
    (search_similar_jds_behaviour ⟨[[0], [1]], ["a", "b"]⟩ [0] 5).2.2
      (by norm_num) _ heval⟩

end RecruitmentSystem
